import Mathlib

/-!
Shallow embedding of the Huffman codec of `src/huffman.py`
(class `HuffmanCoding`) and proofs about it.

Modelling conventions:
- A bit is a `Bool` (`false` = character 0, `true` = character 1); the bit
  strings the Python code manipulates become `List Bool`.
- A symbol is any type `α` with decidable equality: text runs instantiate
  `α := Char`, pixel runs instantiate `α` with integer triples.  The Python
  branches on `file_type` in `_build_frequency_dict` / `_get_encoded_data`
  only choose between these two symbol domains, so a single polymorphic
  definition covers both branches.
- Python dicts are association lists looked up with `dictGet`; every dict
  built by the code has pairwise distinct keys, so first-match lookup agrees
  with dict semantics.
- Python exceptions become `Except PyErr`; `PyErr` enumerates the exceptions
  the embedded fragment can actually raise (`IndexError` from `heappop` on an
  empty heap, `KeyError` from a failed dict index, `ValueError` from
  `int(s, 2)` on an empty string).
- `heapq` is a library collaborator, modelled by its priority-queue contract:
  `heappush` adds an element, `heappop` removes an element of minimal
  frequency (here: the leftmost such element).  The tie order between equal
  frequencies is interpreter-internal and nothing proved below depends on
  which minimal element is removed.
- File reading/writing and pickle serialisation are plumbing outside the
  codec; the container is modelled as the record of fields the code pickles.
-/

namespace Huffman

/-- Python exceptions that the embedded code can raise. -/
inductive PyErr where
  | indexError
  | keyError
  | valueError
  deriving DecidableEq

/-- Embeds `HuffmanCoding.Node` (src/huffman.py lines 16-24).  Freshly
pushed nodes carry a symbol and no children (`leaf`); nodes built by
`_merge_nodes` carry `symbol = None` and two children (`internal`).  These
are exactly the two shapes the Python code ever constructs. -/
inductive Node (α : Type) where
  | leaf (symbol : α) (freq : Nat)
  | internal (freq : Nat) (left : Node α) (right : Node α)

/-- The `freq` attribute of a node. -/
def Node.freq {α : Type} : Node α → Nat
  | Node.leaf _ f => f
  | Node.internal f _ _ => f

/-- Symbols stored at the leaves of a node, in left-to-right order. -/
def Node.symbols {α : Type} : Node α → List α
  | Node.leaf a _ => [a]
  | Node.internal _ l r => Node.symbols l ++ Node.symbols r

/-- Lookup in an association list; models Python dict indexing `d[k]`
(`isSome` models the membership test `k in d`).  All dicts built by the
embedded code have distinct keys, so first-match lookup agrees with the
overwrite semantics of a Python dict. -/
def dictGet {κ β : Type} [DecidableEq κ] (k : κ) : List (κ × β) → Option β
  | [] => none
  | p :: rest => if k = p.1 then some p.2 else dictGet k rest

/-- One `freq[sym] += 1` step of `_build_frequency_dict` on a `defaultdict`:
increment in place if the key is present, otherwise append the key with
count 1 (insertion order is preserved, as for a Python dict). -/
def incr {α : Type} [DecidableEq α] : List (α × Nat) → α → List (α × Nat)
  | [], a => [(a, 1)]
  | p :: rest, a => if p.1 = a then (p.1, p.2 + 1) :: rest else p :: incr rest a

/-- Embeds `_build_frequency_dict` (src/huffman.py lines 34-42).  The two
branches (pixel tuples vs text characters) both count occurrences of each
symbol of `data` in order; the symbol domain is the type parameter. -/
def buildFrequencyDict {α : Type} [DecidableEq α] (data : List α) : List (α × Nat) :=
  data.foldl incr []

/-- Number of occurrences of `a` in a list; used to state what the counts
of the frequency table are. -/
def countOcc {α : Type} [DecidableEq α] (a : α) : List α → Nat
  | [] => 0
  | b :: rest => (if b = a then 1 else 0) + countOcc a rest

/-- Models `heapq.heappush`: the heap gains one element.  (The internal
array position is irrelevant: only the multiset of heap elements and the
minimality contract of `heappop` matter, see the header comment.) -/
def heappush {α : Type} (heap : List (Node α)) (n : Node α) : List (Node α) :=
  heap ++ [n]

/-- Models `heapq.heappop`: remove an element of minimal `freq` (`Node.__lt__`
compares frequencies only); `none` models the `IndexError` on an empty heap.
Among equal minimal frequencies the leftmost is taken; no proof below
depends on this tie choice. -/
def popMin {α : Type} : List (Node α) → Option (Node α × List (Node α))
  | [] => none
  | n :: rest =>
    match popMin rest with
    | none => some (n, [])
    | some (m, rest2) =>
      if n.freq ≤ m.freq then some (n, rest) else some (m, n :: rest2)

/-- Embeds `_build_heap` (src/huffman.py lines 44-46): push a leaf node for
every `(symbol, freq)` item of the frequency dict, in dict order. -/
def buildHeap {α : Type} (freq : List (α × Nat)) : List (Node α) :=
  freq.foldl (fun h p => heappush h (Node.leaf p.1 p.2)) []

/-- Embeds the `while len(self.heap) > 1` loop of `_merge_nodes`
(src/huffman.py lines 48-55), with explicit fuel bounding the iteration
count; each iteration pops the two minimal nodes and pushes their merge
(first popped node becomes the left child).  `mergeNodes` supplies fuel
`heap.length`, enough for the loop to run to completion. -/
def mergeNodesAux {α : Type} : Nat → List (Node α) → List (Node α)
  | 0, heap => heap
  | fuel + 1, heap =>
    if heap.length ≤ 1 then heap
    else
      match popMin heap with
      | none => heap
      | some (n1, rest1) =>
        match popMin rest1 with
        | none => heap
        | some (n2, rest2) =>
          mergeNodesAux fuel (heappush rest2 (Node.internal (n1.freq + n2.freq) n1 n2))

/-- Embeds `_merge_nodes` (src/huffman.py lines 48-55). -/
def mergeNodes {α : Type} (heap : List (Node α)) : List (Node α) :=
  mergeNodesAux heap.length heap

/-- Embeds `_build_codes_helper` (src/huffman.py lines 57-63): walk the tree
accumulating the code, appending bit 0 to descend left and bit 1 to descend
right; every node carrying a symbol (exactly the leaves) yields one
`(symbol, code)` entry, in traversal order.  The `codes` dict of the source
is this list read as `symbol / code`, the `reverse_mapping` dict is the
same list with the pairs swapped. -/
def collectCodes {α : Type} : Node α → List Bool → List (α × List Bool)
  | Node.leaf a _, code => [(a, code)]
  | Node.internal _ l r, code =>
    collectCodes l (code ++ [false]) ++ collectCodes r (code ++ [true])

/-- Embeds `_build_codes` (src/huffman.py lines 65-67) up to the point of
obtaining the tree root: `heapq.heappop(self.heap)` on the merged heap;
`PyErr.indexError` models popping an empty heap (the empty-input case). -/
def huffmanRoot {α : Type} [DecidableEq α] (freq : List (α × Nat)) : Except PyErr (Node α) :=
  match popMin (mergeNodes (buildHeap freq)) with
  | none => Except.error PyErr.indexError
  | some (root, _) => Except.ok root

/-- The `codes` table produced from a frequency dict by `_build_heap`,
`_merge_nodes` and `_build_codes` (src/huffman.py lines 44-67). -/
def codeTableOfFreq {α : Type} [DecidableEq α] (freq : List (α × Nat)) :
    Except PyErr (List (α × List Bool)) :=
  Except.map (fun root => collectCodes root []) (huffmanRoot freq)

/-- Embeds `_get_encoded_data` (src/huffman.py lines 69-73): concatenate the
code of each symbol of `data` left to right; a symbol absent from the codes
dict raises `KeyError`. -/
def encodeData {α : Type} [DecidableEq α] (codes : List (α × List Bool)) :
    List α → Except PyErr (List Bool)
  | [] => Except.ok []
  | a :: rest =>
    match dictGet a codes with
    | none => Except.error PyErr.keyError
    | some c =>
      match encodeData codes rest with
      | Except.error e => Except.error e
      | Except.ok bits => Except.ok (c ++ bits)

/-- The value of an 0/1 string read as a binary numeral, most significant
bit first; models `int(s, 2)` on a non-empty bit string. -/
def bitsToNat (l : List Bool) : Nat :=
  l.foldl (fun acc b => 2 * acc + (if b then 1 else 0)) 0

/-- The `w`-character binary rendering of `n`, most significant bit first;
models the format specifier `0wb` (the code uses it only with `w = 8` and
`n < 256`, where the rendering is exact). -/
def natToBits : Nat → Nat → List Bool
  | 0, _ => []
  | w + 1, n => natToBits w (n / 2) ++ [decide (n % 2 = 1)]

/-- Embeds `_pad_encoded_data` (src/huffman.py lines 75-78): compute
`extra = 8 - len(encoded) % 8` (between 1 and 8, since the Python `%`
result is between 0 and 7), render it as an 8-bit header, prepend the
header and append `extra` zero filler bits; returns the padded string and
`extra`, as the source does. -/
def padEncodedData (encoded : List Bool) : List Bool × Nat :=
  let extraPadding := 8 - encoded.length % 8
  (natToBits 8 extraPadding ++ encoded ++ List.replicate extraPadding false, extraPadding)

/-- The successive 8-bit slices `padded[i:i+8]` for `i = 0, 8, 16, ...`
taken by `_get_byte_array`; the fuel (instantiated with the list length)
bounds the number of slices, each of which consumes at least one bit. -/
def chunksAux : Nat → List Bool → List (List Bool)
  | 0, _ => []
  | _ + 1, [] => []
  | fuel + 1, b :: rest => ((b :: rest).take 8) :: chunksAux fuel ((b :: rest).drop 8)

/-- Embeds `_get_byte_array` (src/huffman.py lines 80-81): read each 8-bit
slice as a byte value with `int(-, 2)`. -/
def getByteArray (padded : List Bool) : List Nat :=
  (chunksAux padded.length padded).map bitsToNat

/-- Embeds `_remove_padding` (src/huffman.py lines 83-85).
`int(padded_data[:8], 2)` reads the first (up to) 8 bits as the padding
count, raising `ValueError` exactly when the string is empty; the slice
`padded_data[8:-padding]` keeps the characters from index 8 up to index
`len - padding`, which is the empty string whenever `padding = 0` (the
Python index `-0` is `0`) or `len - padding ≤ 8` (negative stops clamp to
the start). -/
def removePadding (padded : List Bool) : Except PyErr (List Bool) :=
  if padded = [] then Except.error PyErr.valueError
  else
    let padding := bitsToNat (padded.take 8)
    let stop := if padding = 0 then 0 else padded.length - padding
    Except.ok ((padded.take stop).drop 8)

/-- Embeds the loop of `_decode_data` (src/huffman.py lines 87-95); the
first list argument is the accumulated `current_code`, the second the
remaining bits.  When the bits run out the accumulator is discarded and
the collected output returned, exactly as the source does. -/
def decodeDataAux {α : Type} [DecidableEq α] (rev : List (List Bool × α)) :
    List Bool → List Bool → List α
  | _, [] => []
  | current, b :: rest =>
    match dictGet (current ++ [b]) rev with
    | some a => a :: decodeDataAux rev [] rest
    | none => decodeDataAux rev (current ++ [b]) rest

/-- Embeds `_decode_data` (src/huffman.py lines 87-95): start from an empty
`current_code`. -/
def decodeData {α : Type} [DecidableEq α] (rev : List (List Bool × α))
    (bits : List Bool) : List α :=
  decodeDataAux rev [] bits

/-- The fields of the pickled container that take part in the symbol round
trip (src/huffman.py lines 161-168): the packed bytes, the
`reverse_mapping` dict as a code/symbol list, and the stored padding count
(which `decompress` reads but never uses, the header inside the bit string
being authoritative).  The `type` and `shape` fields only steer the
plumbing writers and are outside the codec. -/
structure Container (α : Type) where
  bytes : List Nat
  reverseMapping : List (List Bool × α)
  padding : Nat

/-- Embeds the codec part of `compress` (src/huffman.py lines 150-168):
frequency dict, heap build and merge, code derivation, encoding, padding,
byte packing, container fields.  Errors propagate as the corresponding
uncaught Python exceptions (the `try` in `compress` only guards file
reading). -/
def compressPipeline {α : Type} [DecidableEq α] (data : List α) : Except PyErr (Container α) :=
  let freq := buildFrequencyDict data
  match huffmanRoot freq with
  | Except.error e => Except.error e
  | Except.ok root =>
    let codes := collectCodes root []
    let rev := (collectCodes root []).map (fun p => (p.2, p.1))
    match encodeData codes data with
    | Except.error e => Except.error e
    | Except.ok encoded =>
      let pe := padEncodedData encoded
      Except.ok ⟨getByteArray pe.1, rev, pe.2⟩

/-- Embeds line 185 of `decompress`: each byte expands to its 8-bit
rendering, most significant bit first, and the renderings are concatenated. -/
def unpackBits (bytes : List Nat) : List Bool :=
  (bytes.map (natToBits 8)).flatten

/-- Embeds the codec part of `decompress` (src/huffman.py lines 179-187):
rebuild the bit string from the bytes, strip the padding, decode with the
stored reverse mapping. -/
def decompressPipeline {α : Type} [DecidableEq α] (c : Container α) : Except PyErr (List α) :=
  match removePadding (unpackBits c.bytes) with
  | Except.error e => Except.error e
  | Except.ok bits => Except.ok (decodeData c.reverseMapping bits)

/-- Compression followed by decompression of the resulting container: the
round trip of the spec, `decode(pack(S))`. -/
def compressDecompress {α : Type} [DecidableEq α] (data : List α) : Except PyErr (List α) :=
  match compressPipeline data with
  | Except.error e => Except.error e
  | Except.ok c => decompressPipeline c

/-- Symbols stored across all nodes of a heap. -/
def heapSyms {α : Type} (heap : List (Node α)) : List α :=
  (heap.map Node.symbols).flatten

/-! ### Lemmas about the bit-level layer -/

theorem natToBits_length : ∀ (w n : Nat), (natToBits w n).length = w := by
  intro w
  induction w with
  | zero => intro n; rfl
  | succ w ih => intro n; simp [natToBits, ih]

theorem bitsToNat_concat (l : List Bool) (b : Bool) :
    bitsToNat (l ++ [b]) = 2 * bitsToNat l + (if b then 1 else 0) := by
  simp [bitsToNat, List.foldl_append]

theorem natToBits_bitsToNat : ∀ l : List Bool, natToBits l.length (bitsToNat l) = l := by
  intro l
  induction l using List.reverseRecOn with
  | nil => rfl
  | append_singleton xs x ih =>
    rw [bitsToNat_concat]
    have hlen : (xs ++ [x]).length = xs.length + 1 := by simp
    rw [hlen]
    have hdiv : (2 * bitsToNat xs + (if x then 1 else 0)) / 2 = bitsToNat xs := by
      cases x <;> (simp; try omega)
    have hmod : decide ((2 * bitsToNat xs + (if x then 1 else 0)) % 2 = 1) = x := by
      cases x <;> (simp; try omega)
    simp only [natToBits, hdiv, hmod, ih]

theorem bitsToNat_natToBits : ∀ (w n : Nat), n < 2 ^ w → bitsToNat (natToBits w n) = n := by
  intro w
  induction w with
  | zero =>
    intro n h
    have : n = 0 := by simpa using Nat.lt_one_iff.mp (by simpa using h)
    subst this; rfl
  | succ w ih =>
    intro n h
    have hp : 2 ^ (w + 1) = 2 ^ w * 2 := Nat.pow_succ 2 w
    have hdiv : n / 2 < 2 ^ w := by omega
    have hbit : (if decide (n % 2 = 1) then 1 else 0) = n % 2 := by
      rcases Nat.mod_two_eq_zero_or_one n with h | h <;> simp [h]
    calc bitsToNat (natToBits (w + 1) n)
        = bitsToNat (natToBits w (n / 2) ++ [decide (n % 2 = 1)]) := rfl
      _ = 2 * bitsToNat (natToBits w (n / 2)) + (if decide (n % 2 = 1) then 1 else 0) :=
          bitsToNat_concat _ _
      _ = 2 * (n / 2) + n % 2 := by rw [ih _ hdiv, hbit]
      _ = n := by omega

theorem chunksAux_flatten : ∀ (fuel : Nat) (l : List Bool), l.length ≤ fuel →
    (chunksAux fuel l).flatten = l := by
  intro fuel
  induction fuel with
  | zero =>
    intro l h
    have : l = [] := List.eq_nil_of_length_eq_zero (Nat.le_zero.mp h)
    subst this; rfl
  | succ fuel ih =>
    intro l h
    cases l with
    | nil => rfl
    | cons b rest =>
      simp only [chunksAux, List.flatten_cons]
      rw [ih _ (by simp [List.length_drop]; simp at h; omega)]
      exact List.take_append_drop 8 (b :: rest)

theorem chunksAux_len8 : ∀ (fuel : Nat) (l c : List Bool), l.length ≤ fuel →
    l.length % 8 = 0 → c ∈ chunksAux fuel l → c.length = 8 := by
  intro fuel
  induction fuel with
  | zero => intro l c h h8 hc; simp [chunksAux] at hc
  | succ fuel ih =>
    intro l c h h8 hc
    cases l with
    | nil => simp [chunksAux] at hc
    | cons b rest =>
      simp only [chunksAux, List.mem_cons] at hc
      rcases hc with rfl | hc
      · simp only [List.length_take, List.length_cons]
        simp only [List.length_cons] at h8
        omega
      · refine ih _ _ ?_ ?_ hc
        · simp only [List.length_drop, List.length_cons]
          simp only [List.length_cons] at h
          omega
        · simp only [List.length_drop, List.length_cons]
          simp only [List.length_cons] at h8
          omega

theorem unpack_getByteArray (l : List Bool) (h : l.length % 8 = 0) :
    unpackBits (getByteArray l) = l := by
  unfold unpackBits getByteArray
  rw [List.map_map]
  have hmap : ∀ c ∈ chunksAux l.length l, (natToBits 8 ∘ bitsToNat) c = id c := by
    intro c hc
    have h8 : c.length = 8 := chunksAux_len8 _ _ _ (Nat.le_refl _) h hc
    have hrt := natToBits_bitsToNat c
    rw [h8] at hrt
    simpa using hrt
  rw [List.map_congr_left hmap, List.map_id, chunksAux_flatten _ _ (Nat.le_refl _)]

/-- The padding and byte-packing layer is a lossless round trip: padding an
arbitrary bit string, packing it into bytes, expanding the bytes back to
bits and stripping header and padding recovers the bit string. -/
theorem pack_unpack_aux (e : List Bool) :
    removePadding (unpackBits (getByteArray (padEncodedData e).1)) = Except.ok e := by
  have hx1 : 1 ≤ 8 - e.length % 8 := by omega
  have hx8 : 8 - e.length % 8 ≤ 8 := by omega
  set x := 8 - e.length % 8 with hxdef
  have hpad : (padEncodedData e).1 = natToBits 8 x ++ e ++ List.replicate x false := rfl
  have hhdrlen : (natToBits 8 x).length = 8 := natToBits_length 8 x
  have hlen : (padEncodedData e).1.length = 8 + e.length + x := by
    rw [hpad]; simp [hhdrlen]; omega
  have hmod : (padEncodedData e).1.length % 8 = 0 := by rw [hlen]; omega
  rw [unpack_getByteArray _ hmod, hpad]
  have hne : (natToBits 8 x ++ e ++ List.replicate x false) ≠ [] := by
    intro hcontra
    have := congrArg List.length hcontra
    simp [hhdrlen] at this
  have htake : (natToBits 8 x ++ e ++ List.replicate x false).take 8 = natToBits 8 x := by
    rw [List.append_assoc, List.take_left' hhdrlen]
  have hval : bitsToNat ((natToBits 8 x ++ e ++ List.replicate x false).take 8) = x := by
    rw [htake]
    exact bitsToNat_natToBits 8 x (by norm_num; omega)
  have hx0 : ¬ (x = 0) := by omega
  have hlen2 : (natToBits 8 x ++ e ++ List.replicate x false).length = 8 + e.length + x := by
    simp [hhdrlen]; omega
  have htk : (natToBits 8 x ++ e ++ List.replicate x false).take (8 + e.length)
      = natToBits 8 x ++ e := by
    have hl : (natToBits 8 x ++ e).length = 8 + e.length := by simp [hhdrlen]
    rw [List.take_left' hl]
  have hdr : (natToBits 8 x ++ e).drop 8 = e := by
    rw [List.drop_left' hhdrlen]
  simp only [removePadding, if_neg hne, hval, if_neg hx0, hlen2]
  rw [show 8 + e.length + x - x = 8 + e.length by omega, htk, hdr]

/-! ### Claim theorems: bit layer and error behaviour -/

/-- C7: for every encoded bit string, the padding step computes
`extra = 8 - (length mod 8)` with `extra` between 1 and 8 (padding is added
even when the length is already a multiple of 8), prepends `extra` as an
8-bit header, appends `extra` zero filler bits, and the result has length a
multiple of 8. -/
theorem pad_always_pads_to_byte_boundary (e : List Bool) :
    (padEncodedData e).2 = 8 - e.length % 8 ∧
    1 ≤ (padEncodedData e).2 ∧ (padEncodedData e).2 ≤ 8 ∧
    (padEncodedData e).1
      = natToBits 8 (padEncodedData e).2 ++ e ++ List.replicate (padEncodedData e).2 false ∧
    (padEncodedData e).1.length % 8 = 0 := by
  refine ⟨rfl, ?_, ?_, rfl, ?_⟩
  · show 1 ≤ 8 - e.length % 8; omega
  · show 8 - e.length % 8 ≤ 8; omega
  · show (natToBits 8 (8 - e.length % 8) ++ e ++ List.replicate (8 - e.length % 8) false).length % 8 = 0
    simp [natToBits_length]
    omega

/-- C9: packing an arbitrary bit string `e` (pad via `_pad_encoded_data`,
group 8 bits MSB-first into bytes via `_get_byte_array`) and unpacking
(expand each byte to 8 bits MSB-first, strip header and padding via
`_remove_padding`) yields `e` exactly: the padding and byte-packing layer
alone is a lossless round trip, independent of any code table. -/
theorem pack_unpack_roundtrip (e : List Bool) :
    removePadding (unpackBits (getByteArray (padEncodedData e).1)) = Except.ok e :=
  pack_unpack_aux e

/-- C10: a bit string whose first 8 bits encode 0 makes `_remove_padding`
return the empty string regardless of the remaining payload bits (the
Python slice `[8:-0]` is `[8:0]`, the empty slice), and the empty bit
string then decodes to the empty symbol sequence without any error. -/
theorem zero_padding_header_clears_payload {α : Type} [DecidableEq α]
    (s : List Bool) (rev : List (List Bool × α))
    (h8 : 8 ≤ s.length) (h0 : bitsToNat (s.take 8) = 0) :
    removePadding s = Except.ok [] ∧ decodeData rev [] = ([] : List α) := by
  constructor
  · have hne : s ≠ [] := by
      intro h; subst h; simp at h8
    simp only [removePadding, if_neg hne, h0, if_pos rfl]
    simp
  · rfl

/-- Witness for C10 at a concrete input: a 0 header followed by a stray
payload bit. -/
theorem zero_padding_header_clears_payload_witness :
    8 ≤ (List.replicate 8 false ++ [true]).length ∧
    bitsToNat ((List.replicate 8 false ++ [true]).take 8) = 0 ∧
    (removePadding (List.replicate 8 false ++ [true]) = Except.ok [] ∧
      decodeData [([true], 'x')] [] = ([] : List Char)) :=
  ⟨by decide, by decide,
    zero_padding_header_clears_payload _ _ (by decide) (by decide)⟩

/-- C4 (code bug): `_remove_padding` performs no validation at all.  At the
concrete 8-bit input whose header encodes padding count 9 (outside 0-8 and
larger than the zero remaining bits) it silently returns the empty slice
`padded[8:-9]` instead of failing: no `CorruptContainerError` exists in the
code. -/
theorem remove_padding_accepts_invalid_count :
    removePadding (natToBits 8 9) = Except.ok [] := rfl

/-- C3 (code bug): with code table `0 -> a`, decoding the bit string `01`
leaves the accumulator holding the undecodable bit `1` when the input runs
out, and `_decode_data` silently returns the truncated output `[a]`
instead of failing: the loop has no leftover check and no
`CorruptContainerError` exists in the code. -/
theorem decode_drops_leftover_bits :
    decodeData [([false], 'a')] [false, true] = ['a'] := rfl

/-- C5 (code bug): compressing an empty symbol sequence fails and produces
no container, but with an untyped `IndexError` (from `heapq.heappop` on the
empty heap in `_build_codes`), not the `EmptyInputError` the spec
prescribes (no such error exists in the code). -/
theorem compress_empty_raises_index_error :
    compressPipeline ([] : List Char) = Except.error PyErr.indexError := rfl

/-- C2 (code bug): a single-symbol frequency table gives its symbol the
empty code (the root is a leaf, reached with the empty accumulated path),
so the input of four identical symbols encodes to the empty bit string and
the round trip returns the empty sequence instead of the input. -/
theorem single_symbol_roundtrip_returns_empty :
    compressDecompress ['a', 'a', 'a', 'a'] = Except.ok ([] : List Char) ∧
    codeTableOfFreq (buildFrequencyDict ['a', 'a', 'a', 'a']) = Except.ok [('a', [])] :=
  ⟨rfl, rfl⟩

/-- C1 counterexample: the round trip fails as stated on the non-empty
sequence consisting of one symbol, which decompresses to the empty
sequence. -/
theorem roundtrip_fails_on_single_symbol :
    compressDecompress ['a'] = Except.ok ([] : List Char) ∧
    Except.ok ([] : List Char) ≠ (Except.ok ['a'] : Except PyErr (List Char)) :=
  ⟨rfl, by simp⟩

/-- C6 counterexample: on the frequency table with the single symbol `a`,
the derived code table assigns `a` the empty code, whose length 0 violates
the claimed lower bound of 1. -/
theorem single_symbol_code_is_empty :
    codeTableOfFreq [('a', 1)] = Except.ok [('a', ([] : List Bool))] ∧
    ¬ 1 ≤ (([] : List Bool)).length :=
  ⟨rfl, by simp⟩

/-! ### Lemmas about association-list lookup -/

theorem dictGet_mem {κ β : Type} [DecidableEq κ] :
    ∀ (l : List (κ × β)) (k : κ) (v : β), dictGet k l = some v → (k, v) ∈ l := by
  intro l
  induction l with
  | nil => intro k v h; simp [dictGet] at h
  | cons p rest ih =>
    rcases p with ⟨pk, pv⟩
    intro k v h
    by_cases hk : k = pk
    · simp [dictGet, hk] at h
      simp [hk, h]
    · simp [dictGet, hk] at h
      exact List.mem_cons_of_mem _ (ih _ _ h)

theorem dictGet_of_mem_nodup {κ β : Type} [DecidableEq κ] :
    ∀ (l : List (κ × β)) (k : κ) (v : β), (k, v) ∈ l →
      (l.map Prod.fst).Nodup → dictGet k l = some v := by
  intro l
  induction l with
  | nil => intro k v h _; simp at h
  | cons p rest ih =>
    rcases p with ⟨pk, pv⟩
    intro k v h hnd
    simp only [List.map_cons, List.nodup_cons] at hnd
    rcases List.mem_cons.mp h with heq | hmem
    · simp at heq
      obtain ⟨rfl, rfl⟩ := heq
      simp [dictGet]
    · have hk : ¬ (k = pk) := by
        intro hkk
        subst hkk
        exact hnd.1 (List.mem_map_of_mem Prod.fst hmem)
      simp only [dictGet, if_neg hk]
      exact ih _ _ hmem hnd.2

theorem dictGet_some_of_mem_keys {κ β : Type} [DecidableEq κ] :
    ∀ (l : List (κ × β)) (k : κ), k ∈ l.map Prod.fst → ∃ v, dictGet k l = some v := by
  intro l
  induction l with
  | nil => intro k h; simp at h
  | cons p rest ih =>
    intro k h
    by_cases hk : k = p.1
    · exact ⟨p.2, by simp [dictGet, hk]⟩
    · simp only [List.map_cons, List.mem_cons] at h
      rcases h with h | h
      · exact absurd h hk
      · obtain ⟨v, hv⟩ := ih _ h
        exact ⟨v, by simp [dictGet, hk, hv]⟩

/-! ### Lemmas about the frequency dictionary -/

theorem buildFrequencyDict_concat {α : Type} [DecidableEq α] (xs : List α) (x : α) :
    buildFrequencyDict (xs ++ [x]) = incr (buildFrequencyDict xs) x := by
  simp [buildFrequencyDict, List.foldl_append]

theorem dictGet_incr_self {α : Type} [DecidableEq α] :
    ∀ (l : List (α × Nat)) (x : α),
      dictGet x (incr l x) = some ((dictGet x l).getD 0 + 1) := by
  intro l
  induction l with
  | nil => intro x; simp [incr, dictGet]
  | cons p rest ih =>
    intro x
    by_cases hx : p.1 = x
    · simp [incr, hx, dictGet]
    · have hx2 : ¬ (x = p.1) := fun h => hx h.symm
      simp [incr, hx, dictGet, hx2, ih]

theorem dictGet_incr_other {α : Type} [DecidableEq α] :
    ∀ (l : List (α × Nat)) (x a : α), a ≠ x →
      dictGet a (incr l x) = dictGet a l := by
  intro l
  induction l with
  | nil => intro x a hax; simp [incr, dictGet, hax]
  | cons p rest ih =>
    intro x a hax
    by_cases hx : p.1 = x
    · simp [incr, hx, dictGet, hax]
    · by_cases hap : a = p.1
      · simp [incr, hx, dictGet, hap]
      · simp [incr, hx, dictGet, hap, ih _ _ hax]

theorem sum_incr {α : Type} [DecidableEq α] :
    ∀ (l : List (α × Nat)) (x : α),
      ((incr l x).map Prod.snd).sum = (l.map Prod.snd).sum + 1 := by
  intro l
  induction l with
  | nil => intro x; simp [incr]
  | cons p rest ih =>
    intro x
    by_cases hx : p.1 = x
    · simp [incr, hx]
      omega
    · simp [incr, hx, ih]
      omega

theorem keys_incr {α : Type} [DecidableEq α] :
    ∀ (l : List (α × Nat)) (x : α),
      (incr l x).map Prod.fst
        = if x ∈ l.map Prod.fst then l.map Prod.fst else l.map Prod.fst ++ [x] := by
  intro l
  induction l with
  | nil => intro x; simp [incr]
  | cons p rest ih =>
    intro x
    by_cases hx : p.1 = x
    · simp [incr, hx]
    · have hxp : ¬ (x = p.1) := fun h => hx h.symm
      by_cases hmem : x ∈ rest.map Prod.fst
      · simp [incr, hx, ih, hmem, hxp]
      · simp [incr, hx, ih, hmem, hxp]

/-! ### Lemmas about occurrence counts -/

theorem countOcc_append {α : Type} [DecidableEq α] (a : α) :
    ∀ (xs ys : List α), countOcc a (xs ++ ys) = countOcc a xs + countOcc a ys := by
  intro xs ys
  induction xs with
  | nil => simp [countOcc]
  | cons b rest ih =>
    rw [List.cons_append]
    simp only [countOcc, ih]
    omega

theorem countOcc_eq_zero {α : Type} [DecidableEq α] (a : α) :
    ∀ (l : List α), a ∉ l → countOcc a l = 0 := by
  intro l
  induction l with
  | nil => intro _; rfl
  | cons b rest ih =>
    intro h
    simp only [List.mem_cons, not_or] at h
    have hb : ¬ (b = a) := fun hba => h.1 hba.symm
    simp [countOcc, hb, ih h.2]

theorem countOcc_pos {α : Type} [DecidableEq α] (a : α) :
    ∀ (l : List α), a ∈ l → 0 < countOcc a l := by
  intro l
  induction l with
  | nil => intro h; simp at h
  | cons b rest ih =>
    intro h
    rcases List.mem_cons.mp h with rfl | hmem
    · simp [countOcc]
    · have := ih hmem
      simp only [countOcc]
      omega

/-- Full characterisation of `_build_frequency_dict`: lookup of a symbol
that occurs in the data yields its occurrence count, lookup of any other
symbol fails. -/
theorem dictGet_buildFrequencyDict {α : Type} [DecidableEq α] :
    ∀ (data : List α) (a : α),
      dictGet a (buildFrequencyDict data)
        = if a ∈ data then some (countOcc a data) else none := by
  intro data
  induction data using List.reverseRecOn with
  | nil => intro a; simp [buildFrequencyDict, dictGet]
  | append_singleton xs x ih =>
    intro a
    rw [buildFrequencyDict_concat]
    by_cases hax : a = x
    · subst hax
      rw [dictGet_incr_self, ih a]
      by_cases hmem : a ∈ xs
      · simp [hmem, countOcc_append, countOcc]
      · simp [hmem, countOcc_append, countOcc, countOcc_eq_zero _ _ hmem]
    · rw [dictGet_incr_other _ _ _ hax, ih a]
      by_cases hmem : a ∈ xs
      · have hb : ¬ (x = a) := fun h => hax h.symm
        simp [hmem, hax, countOcc_append, countOcc, hb]
      · simp [hmem, hax]

theorem sum_buildFrequencyDict {α : Type} [DecidableEq α] :
    ∀ (data : List α), ((buildFrequencyDict data).map Prod.snd).sum = data.length := by
  intro data
  induction data using List.reverseRecOn with
  | nil => simp [buildFrequencyDict]
  | append_singleton xs x ih =>
    rw [buildFrequencyDict_concat, sum_incr, ih]
    simp

theorem keys_nodup_buildFrequencyDict {α : Type} [DecidableEq α] :
    ∀ (data : List α), ((buildFrequencyDict data).map Prod.fst).Nodup := by
  intro data
  induction data using List.reverseRecOn with
  | nil => simp [buildFrequencyDict]
  | append_singleton xs x ih =>
    rw [buildFrequencyDict_concat, keys_incr]
    by_cases hmem : x ∈ (buildFrequencyDict xs).map Prod.fst
    · simp [hmem, ih]
    · simp [hmem, List.nodup_append, ih]

theorem mem_keys_buildFrequencyDict {α : Type} [DecidableEq α]
    (data : List α) (a : α) (h : a ∈ data) :
    a ∈ (buildFrequencyDict data).map Prod.fst := by
  have hchar := dictGet_buildFrequencyDict data a
  rw [if_pos h] at hchar
  exact List.mem_map_of_mem Prod.fst (dictGet_mem _ _ _ hchar)

/-- C8: for every symbol sequence, the frequency analysis returns a table
mapping each distinct symbol of the sequence to its positive occurrence
count (and no other symbol), and the counts sum to the sequence length. -/
theorem frequency_table_counts {α : Type} [DecidableEq α] (data : List α) :
    ((buildFrequencyDict data).map Prod.snd).sum = data.length ∧
    (∀ a ∈ data,
      dictGet a (buildFrequencyDict data) = some (countOcc a data) ∧ 0 < countOcc a data) ∧
    (∀ a, a ∉ data → dictGet a (buildFrequencyDict data) = none) := by
  refine ⟨sum_buildFrequencyDict data, ?_, ?_⟩
  · intro a ha
    refine ⟨?_, countOcc_pos _ _ ha⟩
    rw [dictGet_buildFrequencyDict data a, if_pos ha]
  · intro a ha
    rw [dictGet_buildFrequencyDict data a, if_neg ha]

/-! ### Lemmas about the heap and the merge loop -/

theorem perm_flatten {γ : Type} {l1 l2 : List (List γ)} (h : l1.Perm l2) :
    l1.flatten.Perm l2.flatten := by
  induction h with
  | nil => exact List.Perm.refl _
  | cons x _ ih => simpa using ih.append_left x
  | swap x y l =>
    simp only [List.flatten_cons]
    rw [← List.append_assoc, ← List.append_assoc]
    exact List.perm_append_comm.append_right _
  | trans _ _ ih1 ih2 => exact ih1.trans ih2

theorem popMin_none_iff {α : Type} (l : List (Node α)) : popMin l = none ↔ l = [] := by
  cases l with
  | nil => simp [popMin]
  | cons n rest =>
    simp only [popMin]
    cases h : popMin rest with
    | none => simp
    | some pr =>
      rcases pr with ⟨m, rest2⟩
      by_cases hf : n.freq ≤ m.freq <;> simp [hf]

theorem popMin_perm {α : Type} :
    ∀ (l : List (Node α)) (n : Node α) (rest : List (Node α)),
      popMin l = some (n, rest) → l.Perm (n :: rest) := by
  intro l
  induction l with
  | nil => intro n rest h; simp [popMin] at h
  | cons m tail ih =>
    intro n rest h
    cases htail : popMin tail with
    | none =>
      have htl : tail = [] := (popMin_none_iff tail).mp htail
      subst htl
      simp [popMin] at h
      obtain ⟨rfl, rfl⟩ := h
      exact List.Perm.refl _
    | some pr =>
      rcases pr with ⟨m2, rest2⟩
      by_cases hf : m.freq ≤ m2.freq
      · simp only [popMin, htail, if_pos hf, Option.some.injEq, Prod.mk.injEq] at h
        obtain ⟨rfl, rfl⟩ := h
        exact List.Perm.refl _
      · simp only [popMin, htail, if_neg hf, Option.some.injEq, Prod.mk.injEq] at h
        obtain ⟨rfl, rfl⟩ := h
        have h1 : tail.Perm (m2 :: rest2) := ih _ _ htail
        exact (h1.cons m).trans (List.Perm.swap m2 m rest2)

theorem heapSyms_cons {α : Type} (n : Node α) (heap : List (Node α)) :
    heapSyms (n :: heap) = n.symbols ++ heapSyms heap := by
  simp [heapSyms]

theorem heapSyms_perm {α : Type} {l1 l2 : List (Node α)} (h : l1.Perm l2) :
    (heapSyms l1).Perm (heapSyms l2) :=
  perm_flatten (h.map Node.symbols)

theorem mergeNodesAux_perm {α : Type} :
    ∀ (fuel : Nat) (heap : List (Node α)),
      (heapSyms (mergeNodesAux fuel heap)).Perm (heapSyms heap) := by
  intro fuel
  induction fuel with
  | zero => intro heap; exact List.Perm.refl _
  | succ fuel ih =>
    intro heap
    by_cases hlen : heap.length ≤ 1
    · simp [mergeNodesAux, hlen]
    · cases h1 : popMin heap with
      | none =>
        have he : mergeNodesAux (fuel + 1) heap = heap := by
          simp [mergeNodesAux, hlen, h1]
        rw [he]
      | some pr1 =>
        rcases pr1 with ⟨n1, rest1⟩
        cases h2 : popMin rest1 with
        | none =>
          have he : mergeNodesAux (fuel + 1) heap = heap := by
            simp [mergeNodesAux, hlen, h1, h2]
          rw [he]
        | some pr2 =>
          rcases pr2 with ⟨n2, rest2⟩
          have he : mergeNodesAux (fuel + 1) heap
              = mergeNodesAux fuel
                  (heappush rest2 (Node.internal (n1.freq + n2.freq) n1 n2)) := by
            simp [mergeNodesAux, hlen, h1, h2]
          rw [he]
          refine (ih _).trans ?_
          have e1 : heapSyms (heappush rest2 (Node.internal (n1.freq + n2.freq) n1 n2))
              = heapSyms rest2 ++ (n1.symbols ++ n2.symbols) := by
            simp [heappush, heapSyms, Node.symbols]
          rw [e1]
          have p1 : (heapSyms heap).Perm (n1.symbols ++ heapSyms rest1) := by
            have hh := heapSyms_perm (popMin_perm _ _ _ h1)
            simpa [heapSyms_cons] using hh
          have p2 : (heapSyms rest1).Perm (n2.symbols ++ heapSyms rest2) := by
            have hh := heapSyms_perm (popMin_perm _ _ _ h2)
            simpa [heapSyms_cons] using hh
          have q1 : (heapSyms rest2 ++ (n1.symbols ++ n2.symbols)).Perm
              (n1.symbols ++ (n2.symbols ++ heapSyms rest2)) := by
            have hcomm :=
              @List.perm_append_comm _ (heapSyms rest2) (n1.symbols ++ n2.symbols)
            simpa [List.append_assoc] using hcomm
          have q2 : (n2.symbols ++ heapSyms rest2).Perm (heapSyms rest1) := p2.symm
          exact q1.trans ((q2.append_left n1.symbols).trans p1.symm)

theorem mergeNodesAux_length {α : Type} :
    ∀ (fuel : Nat) (heap : List (Node α)), heap.length ≤ fuel + 1 → 1 ≤ heap.length →
      (mergeNodesAux fuel heap).length = 1 := by
  intro fuel
  induction fuel with
  | zero =>
    intro heap h1 h2
    simp only [mergeNodesAux]
    omega
  | succ fuel ih =>
    intro heap h1 h2
    by_cases hlen : heap.length ≤ 1
    · simp only [mergeNodesAux, if_pos hlen]
      omega
    · cases hp1 : popMin heap with
      | none =>
        have := (popMin_none_iff heap).mp hp1
        subst this
        simp at hlen
      | some pr1 =>
        rcases pr1 with ⟨n1, rest1⟩
        have hr1 : rest1.length + 1 = heap.length := by
          have hl := (popMin_perm _ _ _ hp1).length_eq
          simpa using hl.symm
        cases hp2 : popMin rest1 with
        | none =>
          have : rest1 = [] := (popMin_none_iff rest1).mp hp2
          subst this
          simp at hr1
          omega
        | some pr2 =>
          rcases pr2 with ⟨n2, rest2⟩
          have hr2 : rest2.length + 1 = rest1.length := by
            have hl := (popMin_perm _ _ _ hp2).length_eq
            simpa using hl.symm
          have he : mergeNodesAux (fuel + 1) heap
              = mergeNodesAux fuel
                  (heappush rest2 (Node.internal (n1.freq + n2.freq) n1 n2)) := by
            simp [mergeNodesAux, hlen, hp1, hp2]
          rw [he]
          apply ih
          · simp [heappush]
            omega
          · simp [heappush]

/-- The merge loop on a non-empty heap terminates with a single tree whose
leaf symbols are a permutation of the symbols of the initial heap. -/
theorem mergeNodes_singleton {α : Type} (heap : List (Node α)) (h : 1 ≤ heap.length) :
    ∃ t : Node α, mergeNodes heap = [t] ∧ (t.symbols).Perm (heapSyms heap) := by
  have hlen : (mergeNodes heap).length = 1 :=
    mergeNodesAux_length heap.length heap (by omega) h
  obtain ⟨t, ht⟩ : ∃ t, mergeNodes heap = [t] := by
    cases hm : mergeNodes heap with
    | nil => rw [hm] at hlen; simp at hlen
    | cons t rest =>
      rw [hm] at hlen
      simp at hlen
      exact ⟨t, by rw [hlen]⟩
  refine ⟨t, ht, ?_⟩
  have hperm := mergeNodesAux_perm heap.length heap
  rw [show mergeNodesAux heap.length heap = mergeNodes heap from rfl, ht] at hperm
  simpa [heapSyms] using hperm

theorem foldl_push_map {α : Type} :
    ∀ (freq : List (α × Nat)) (acc : List (Node α)),
      freq.foldl (fun h p => heappush h (Node.leaf p.1 p.2)) acc
        = acc ++ freq.map (fun p => Node.leaf p.1 p.2) := by
  intro freq
  induction freq with
  | nil => intro acc; simp
  | cons p rest ih =>
    intro acc
    show List.foldl (fun h q => heappush h (Node.leaf q.1 q.2))
        (heappush acc (Node.leaf p.1 p.2)) rest
      = acc ++ (Node.leaf p.1 p.2 :: rest.map (fun q => Node.leaf q.1 q.2))
    rw [ih]
    simp [heappush, List.append_assoc]

theorem buildHeap_eq {α : Type} (freq : List (α × Nat)) :
    buildHeap freq = freq.map (fun p => Node.leaf p.1 p.2) := by
  have h := foldl_push_map freq []
  rw [List.nil_append] at h
  exact h

theorem heapSyms_buildHeap {α : Type} (freq : List (α × Nat)) :
    heapSyms (buildHeap freq) = freq.map Prod.fst := by
  rw [buildHeap_eq]
  induction freq with
  | nil => rfl
  | cons p rest ih =>
    simp only [List.map_cons]
    rw [heapSyms_cons, ih]
    simp [Node.symbols]

/-! ### Lemmas about the derived code table -/

theorem collectCodes_map_fst {α : Type} :
    ∀ (t : Node α) (pre : List Bool), (collectCodes t pre).map Prod.fst = t.symbols := by
  intro t
  induction t with
  | leaf a f => intro pre; simp [collectCodes, Node.symbols]
  | internal f l r ihl ihr =>
    intro pre
    simp [collectCodes, Node.symbols, ihl, ihr]

theorem collectCodes_shape {α : Type} :
    ∀ (t : Node α) (pre : List Bool) (p : α × List Bool), p ∈ collectCodes t pre →
      ∃ s, p.2 = pre ++ s := by
  intro t
  induction t with
  | leaf a f =>
    intro pre p hp
    simp [collectCodes] at hp
    exact ⟨[], by simp [hp]⟩
  | internal f l r ihl ihr =>
    intro pre p hp
    simp only [collectCodes, List.mem_append] at hp
    rcases hp with hp | hp
    · obtain ⟨s, hs⟩ := ihl _ _ hp
      exact ⟨false :: s, by rw [hs, List.append_assoc]; rfl⟩
    · obtain ⟨s, hs⟩ := ihr _ _ hp
      exact ⟨true :: s, by rw [hs, List.append_assoc]; rfl⟩

theorem pfx_append_cancel {γ : Type} {l x y : List γ} (h : (l ++ x) <+: (l ++ y)) :
    x <+: y := by
  obtain ⟨t, ht⟩ := h
  refine ⟨t, ?_⟩
  rw [List.append_assoc] at ht
  exact List.append_cancel_left ht

theorem collectCodes_pairwise {α : Type} :
    ∀ (t : Node α) (pre : List Bool),
      (collectCodes t pre).Pairwise
        (fun p q => ¬ (p.2 <+: q.2) ∧ ¬ (q.2 <+: p.2)) := by
  intro t
  induction t with
  | leaf a f => intro pre; simp [collectCodes]
  | internal f l r ihl ihr =>
    intro pre
    simp only [collectCodes]
    rw [List.pairwise_append]
    refine ⟨ihl _, ihr _, ?_⟩
    intro p hp q hq
    obtain ⟨s1, hs1⟩ := collectCodes_shape l _ p hp
    obtain ⟨s2, hs2⟩ := collectCodes_shape r _ q hq
    constructor
    · intro hpq
      rw [hs1, hs2, List.append_assoc, List.append_assoc] at hpq
      obtain ⟨t2, ht2⟩ := pfx_append_cancel hpq
      simp at ht2
    · intro hpq
      rw [hs1, hs2, List.append_assoc, List.append_assoc] at hpq
      obtain ⟨t2, ht2⟩ := pfx_append_cancel hpq
      simp at ht2

theorem collectCodes_length_lt {α : Type} (f : Nat) (l r : Node α) (pre : List Bool) :
    ∀ p ∈ collectCodes (Node.internal f l r) pre, pre.length < p.2.length := by
  intro p hp
  simp only [collectCodes, List.mem_append] at hp
  rcases hp with hp | hp
  · obtain ⟨s, hs⟩ := collectCodes_shape l _ p hp
    rw [hs]
    simp
  · obtain ⟨s, hs⟩ := collectCodes_shape r _ p hp
    rw [hs]
    simp

/-! ### Decoding a concatenation of codes -/

theorem decodeAux_consume {α : Type} [DecidableEq α] (rev : List (List Bool × α))
    (c : List Bool) (a : α) (hc : dictGet c rev = some a)
    (hpf : ∀ (p : List Bool) (x : α), dictGet p rev = some x → p <+: c → p = c) :
    ∀ (c2 c1 rest : List Bool), c1 ++ c2 = c → c2 ≠ [] →
      decodeDataAux rev c1 (c2 ++ rest) = a :: decodeDataAux rev [] rest := by
  intro c2
  induction c2 with
  | nil => intro c1 rest h hne; exact absurd rfl hne
  | cons b c2t ih =>
    intro c1 rest heq hne
    cases c2t with
    | nil =>
      have h1 : c1 ++ [b] = c := heq
      show decodeDataAux rev c1 (b :: rest) = a :: decodeDataAux rev [] rest
      simp only [decodeDataAux, h1, hc]
    | cons b2 c2tt =>
      have hsplit : (c1 ++ [b]) ++ (b2 :: c2tt) = c := by
        rw [List.append_assoc]
        simpa using heq
      have hcur : dictGet (c1 ++ [b]) rev = none := by
        cases hd : dictGet (c1 ++ [b]) rev with
        | none => rfl
        | some x =>
          have hp : (c1 ++ [b]) <+: c := ⟨b2 :: c2tt, hsplit⟩
          have heqc := hpf _ _ hd hp
          have hlen := congrArg List.length hsplit
          rw [heqc] at hlen
          simp at hlen
      show decodeDataAux rev c1 ((b :: b2 :: c2tt) ++ rest) = a :: decodeDataAux rev [] rest
      rw [show (b :: b2 :: c2tt) ++ rest = b :: ((b2 :: c2tt) ++ rest) from rfl]
      simp only [decodeDataAux, hcur]
      exact ih (c1 ++ [b]) rest hsplit (by simp)

/-- Encoding any sequence of symbols drawn from a prefix-incomparable code
table with non-empty codes, then decoding the concatenation with the
swapped table, recovers the sequence. -/
theorem encode_decode {α : Type} [DecidableEq α] (table : List (α × List Bool))
    (hpw : table.Pairwise (fun p q => ¬ (p.2 <+: q.2) ∧ ¬ (q.2 <+: p.2)))
    (hne : ∀ p ∈ table, p.2 ≠ []) :
    ∀ data : List α, (∀ x ∈ data, x ∈ table.map Prod.fst) →
      ∃ e, encodeData table data = Except.ok e ∧
        decodeData (table.map (fun p => (p.2, p.1))) e = data := by
  have hsnd : (table.map (fun p => p.2)).Nodup := by
    have hne2 : table.Pairwise (fun p q => p.2 ≠ q.2) :=
      hpw.imp (fun h heq => h.1 (by rw [heq]))
    exact (List.pairwise_map).mpr hne2
  intro data
  induction data with
  | nil => intro _; exact ⟨[], rfl, rfl⟩
  | cons a rest ih =>
    intro hmem
    obtain ⟨c, hca⟩ := dictGet_some_of_mem_keys table a (hmem a (by simp))
    obtain ⟨e1, he1, hd1⟩ := ih (fun x hx => hmem x (by simp [hx]))
    refine ⟨c ++ e1, ?_, ?_⟩
    · simp only [encodeData, hca, he1]
    · have hmemc : (a, c) ∈ table := dictGet_mem _ _ _ hca
      have hcne : c ≠ [] := hne _ hmemc
      have hcrev : dictGet c (table.map (fun p => (p.2, p.1))) = some a := by
        apply dictGet_of_mem_nodup
        · exact List.mem_map_of_mem _ hmemc
        · rw [List.map_map]
          exact hsnd
      have hpfc : ∀ (p : List Bool) (x : α),
          dictGet p (table.map (fun p => (p.2, p.1))) = some x → p <+: c → p = c := by
        intro p x hdx hppfx
        by_contra hpc
        have hmemp := dictGet_mem _ _ _ hdx
        obtain ⟨q, hq, hqe⟩ := List.mem_map.mp hmemp
        simp at hqe
        have hqne : q ≠ (a, c) := by
          intro hh
          apply hpc
          rw [← hqe.1, hh]
        have hsym : Symmetric
            (fun (u v : α × List Bool) => ¬ (u.2 <+: v.2) ∧ ¬ (v.2 <+: u.2)) :=
          fun u v h => ⟨h.2, h.1⟩
        have hinc := List.Pairwise.forall hsym hpw hq hmemc hqne
        exact hinc.1 (by rw [hqe.1]; exact hppfx)
      have hstep := decodeAux_consume _ c a hcrev hpfc c [] e1 (by simp) hcne
      show decodeDataAux (table.map (fun p => (p.2, p.1))) [] (c ++ e1) = a :: rest
      rw [hstep]
      rw [show decodeDataAux (table.map (fun p => (p.2, p.1))) [] e1
            = decodeData (table.map (fun p => (p.2, p.1))) e1 from rfl, hd1]

/-! ### Assembled round-trip and code-table theorems -/

/-- C1 (amended): for every non-empty symbol sequence whose frequency table
has at least two distinct symbols, compressing (derive the code table from
the sequence frequency table, encode each symbol in order, pad, pack into
bytes) and then decompressing the container (unpack, strip header and
padding, walk the bits through the swapped code table) returns exactly the
input sequence; this covers both the text and pixel symbol variants via
the type parameter.  A sequence with a single distinct symbol instead
round-trips to the empty sequence (see the counterexample theorem). -/
theorem roundtrip_two_or_more_symbols {α : Type} [DecidableEq α] (data : List α)
    (_hdne : data ≠ []) (h2 : 2 ≤ (buildFrequencyDict data).length) :
    compressDecompress data = Except.ok data := by
  set freq := buildFrequencyDict data with hfreqdef
  have hheap1 : 1 ≤ (buildHeap freq).length := by
    rw [buildHeap_eq]
    simp only [List.length_map]
    omega
  obtain ⟨t, htmerge, htperm⟩ := mergeNodes_singleton (buildHeap freq) hheap1
  have hsymsperm : (t.symbols).Perm (freq.map Prod.fst) := by
    rw [heapSyms_buildHeap] at htperm
    exact htperm
  have hroot : huffmanRoot freq = Except.ok t := by
    rw [huffmanRoot, htmerge]
    simp [popMin]
  have htlen : t.symbols.length = freq.length := by
    rw [hsymsperm.length_eq]
    simp
  obtain ⟨f0, l0, r0, ht⟩ : ∃ f0 l0 r0, t = Node.internal f0 l0 r0 := by
    cases t with
    | leaf a ff =>
      exfalso
      simp [Node.symbols] at htlen
      omega
    | internal f0 l0 r0 => exact ⟨f0, l0, r0, rfl⟩
  set table := collectCodes t [] with htabledef
  have htfst : table.map Prod.fst = t.symbols := collectCodes_map_fst t []
  have hpw := collectCodes_pairwise t []
  have hcodene : ∀ p ∈ table, p.2 ≠ [] := by
    intro p hp
    rw [htabledef, ht] at hp
    have hlt := collectCodes_length_lt f0 l0 r0 [] p hp
    intro hcontra
    rw [hcontra] at hlt
    simp at hlt
  have hmemkeys : ∀ x ∈ data, x ∈ table.map Prod.fst := by
    intro x hx
    rw [htfst]
    exact (hsymsperm.mem_iff).mpr (mem_keys_buildFrequencyDict data x hx)
  obtain ⟨e, henc, hdec⟩ := encode_decode table hpw hcodene data hmemkeys
  have hcp : compressPipeline data
      = Except.ok ⟨getByteArray (padEncodedData e).1,
          table.map (fun p => (p.2, p.1)), (padEncodedData e).2⟩ := by
    simp only [compressPipeline, ← hfreqdef, hroot, ← htabledef, henc]
  have hdp : decompressPipeline
      (⟨getByteArray (padEncodedData e).1, table.map (fun p => (p.2, p.1)),
        (padEncodedData e).2⟩ : Container α) = Except.ok data := by
    simp only [decompressPipeline, pack_unpack_aux e]
    rw [hdec]
  simp only [compressDecompress, hcp, hdp]

/-- Witness for the amended C1 at the concrete text input `abb`, whose
frequency table has the two distinct symbols `a` and `b`. -/
theorem roundtrip_two_or_more_symbols_witness :
    (['a', 'b', 'b'] : List Char) ≠ [] ∧
    2 ≤ (buildFrequencyDict ['a', 'b', 'b']).length ∧
    compressDecompress ['a', 'b', 'b'] = Except.ok ['a', 'b', 'b'] :=
  ⟨by simp, by decide,
    roundtrip_two_or_more_symbols ['a', 'b', 'b'] (by simp) (by decide)⟩

/-- C6 (amended): for every frequency table with distinct symbols and at
least two entries, the code table derived by walking the Huffman tree
(bit 0 descending left, bit 1 descending right) assigns every symbol a
code of length at least 1, and for all pairs of entries with distinct
symbols neither code is a prefix of the other.  A single-entry table
instead assigns its symbol the empty code (see the counterexample
theorem). -/
theorem code_table_prefix_free {α : Type} [DecidableEq α]
    (freq : List (α × Nat)) (table : List (α × List Bool))
    (_hnodup : (freq.map Prod.fst).Nodup) (h2 : 2 ≤ freq.length)
    (htab : codeTableOfFreq freq = Except.ok table) :
    (∀ p ∈ table, 1 ≤ p.2.length) ∧
    (∀ p ∈ table, ∀ q ∈ table, p.1 ≠ q.1 →
      ¬ (p.2 <+: q.2) ∧ ¬ (q.2 <+: p.2)) := by
  have hheap1 : 1 ≤ (buildHeap freq).length := by
    rw [buildHeap_eq]
    simp only [List.length_map]
    omega
  obtain ⟨t, htmerge, htperm⟩ := mergeNodes_singleton (buildHeap freq) hheap1
  have hroot : huffmanRoot freq = Except.ok t := by
    rw [huffmanRoot, htmerge]
    simp [popMin]
  have htable : table = collectCodes t [] := by
    rw [codeTableOfFreq, hroot] at htab
    simp [Except.map] at htab
    exact htab.symm
  have hsymsperm : (t.symbols).Perm (freq.map Prod.fst) := by
    rw [heapSyms_buildHeap] at htperm
    exact htperm
  have htlen : t.symbols.length = freq.length := by
    rw [hsymsperm.length_eq]
    simp
  obtain ⟨f0, l0, r0, ht⟩ : ∃ f0 l0 r0, t = Node.internal f0 l0 r0 := by
    cases t with
    | leaf a ff =>
      exfalso
      simp [Node.symbols] at htlen
      omega
    | internal f0 l0 r0 => exact ⟨f0, l0, r0, rfl⟩
  constructor
  · intro p hp
    rw [htable, ht] at hp
    have hlt := collectCodes_length_lt f0 l0 r0 [] p hp
    simpa using hlt
  · intro p hp q hq hpq
    have hsym : Symmetric
        (fun (u v : α × List Bool) => ¬ (u.2 <+: v.2) ∧ ¬ (v.2 <+: u.2)) :=
      fun u v h => ⟨h.2, h.1⟩
    have hpw := collectCodes_pairwise t []
    rw [← htable] at hpw
    have hpqne : p ≠ q := fun h => hpq (by rw [h])
    exact List.Pairwise.forall hsym hpw hp hq hpqne

/-- Witness for the amended C6 at the concrete two-symbol frequency table
for `a` (count 1) and `b` (count 2), whose derived codes are the single
bits 0 and 1. -/
theorem code_table_prefix_free_witness :
    ((([('a', 1), ('b', 2)] : List (Char × Nat)).map Prod.fst).Nodup ∧
      2 ≤ ([('a', 1), ('b', 2)] : List (Char × Nat)).length ∧
      codeTableOfFreq [('a', 1), ('b', 2)] = Except.ok [('a', [false]), ('b', [true])]) ∧
    ((∀ p ∈ [('a', [false]), ('b', [true])], 1 ≤ p.2.length) ∧
      (∀ p ∈ [('a', [false]), ('b', [true])],
        ∀ q ∈ [('a', [false]), ('b', [true])], p.1 ≠ q.1 →
          ¬ (p.2 <+: q.2) ∧ ¬ (q.2 <+: p.2))) :=
  ⟨⟨by decide, by decide, rfl⟩,
    code_table_prefix_free [('a', 1), ('b', 2)] [('a', [false]), ('b', [true])]
      (by decide) (by decide) rfl⟩

end Huffman
